import Mathlib

/-!
Verification of the `gowork` project locator.

The Go sources are embedded shallowly:
* pure string manipulation (`strings.SplitN`, `path.Join`, `path.Clean`,
  `strings.EqualFold`) becomes Lean functions on `List Char` / `String`;
* filesystem reads (`ioutil.ReadDir`) are modelled by an explicit
  filesystem valuation `FS : String → Except String (List FileInfo)`
  (the `String` error is the underlying I/O error message, which Go
  surfaces unchanged);
* reading the `GOPATH` environment variable (`os.Getenv`) is modelled by
  an explicit environment valuation `Env : String → String`;
* Go runtime panics (out-of-range slice indexing in `Split`) become an
  explicit `SplitFailure.indexOutOfRange` outcome;
* the channel-based streaming search (`FindProject`, whose defining file
  is absent from the provided sources and is modelled from the spec) is
  embedded as the ordered trace of channel events the producer performs.
-/

/-! ## Go string primitives -/

/-- First occurrence split: `splitFirst sep cs = some (b, a)` when
`cs = b ++ sep :: a` and `sep` does not occur in `b`; `none` when `sep`
does not occur in `cs`. -/
def splitFirst (sep : Char) : List Char → Option (List Char × List Char)
  | [] => none
  | c :: cs =>
    if c = sep then some ([], cs)
    else (splitFirst sep cs).map (fun p => (c :: p.1, p.2))

/-- `strings.SplitN(s, sep, n)` for a single-character separator, on
`List Char`: at most `n` pieces, the last piece holds the rest. -/
def splitNList (sep : Char) : Nat → List Char → List (List Char)
  | 0, _ => []
  | 1, cs => [cs]
  | n + 2, cs =>
    match splitFirst sep cs with
    | none => [cs]
    | some (b, a) => b :: splitNList sep (n + 1) a

/-- `strings.SplitN(s, "/", n)` as used by `Author.Split` / `Project.Split`. -/
def goSplitN (s : String) (sep : Char) (n : Nat) : List String :=
  (splitNList sep n s.data).map (fun cs => String.mk cs)

/-- Split a character list on every occurrence of `sep`
(helper for the model of Go `path.Clean`). -/
def splitAll (sep : Char) : List Char → List (List Char)
  | [] => [[]]
  | c :: cs =>
    match splitAll sep cs with
    | [] => [[]]
    | g :: gs => if c = sep then [] :: g :: gs else (c :: g) :: gs

/-- The component-stack pass of Go `path.Clean`: drops empty and `.`
components, resolves `..` against the stack (a leading `..` is dropped
when the path is rooted, kept otherwise). -/
def cleanComponents (rooted : Bool) (comps : List (List Char)) : List (List Char) :=
  (comps.foldl
    (fun acc c =>
      if c = [] ∨ c = ['.'] then acc
      else if c = ['.', '.'] then
        match acc with
        | [] => if rooted then [] else [['.', '.']]
        | x :: rest => if x = ['.', '.'] then c :: x :: rest else rest
      else c :: acc)
    []).reverse

/-- Go `path.Clean`. -/
def pathClean (s : String) : String :=
  match s.data with
  | [] => "."
  | c :: cs =>
    let rooted := c = '/'
    let body := List.intercalate ['/'] (cleanComponents rooted (splitAll '/' (c :: cs)))
    if rooted then String.mk ('/' :: body)
    else if body = [] then "."
    else String.mk body

/-- Go `path.Join`: drop empty elements, join with `/`, clean.  An
all-empty argument list yields `""`. -/
def pathJoin (elems : List String) : String :=
  let pieces := (elems.filter (fun e => e ≠ "")).map String.data
  if pieces = [] then "" else pathClean (String.mk (List.intercalate ['/'] pieces))

/-- ASCII-lowered character list of a string.  `strings.EqualFold`
performs Unicode simple case folding; on the ASCII identifiers this
repository manipulates that coincides with ASCII lowering, which is what
`Char.toLower` implements. -/
def lowerStr (s : String) : List Char := s.data.map Char.toLower

/-- Model of `strings.EqualFold` (ASCII fragment). -/
def equalFold (a b : String) : Bool := lowerStr a = lowerStr b

/-! ## Filesystem and environment model -/

/-- The slice of `os.FileInfo` the code consults: entry name and
directory bit.  `ioutil.ReadDir` never returns an empty entry name. -/
structure FileInfo where
  name : String
  isDir : Bool
deriving DecidableEq, Repr

/-- A filesystem valuation: one directory read (`ioutil.ReadDir`) per
path, yielding either the ordered entry list or the I/O error message. -/
def FS : Type := String → Except String (List FileInfo)

/-- An environment valuation (`os.Getenv`). -/
def Env : Type := String → String

/-- `getGopath`: reads the `GOPATH` environment variable.  The source
calls `os.Getenv` directly; the ambient environment is the explicit
argument here. -/
def getGopath (env : Env) : String := env "GOPATH"

/-- `isProperDirectory`: a directory whose name does not begin with the
hidden marker `.`.  The source tests `dir.Name()[0] == '.'`; entry names
from `ReadDir` are non-empty, modelled by `head?`. -/
def isProperDirectory (dir : FileInfo) : Bool :=
  dir.isDir && !(dir.name.data.head? = some '.')

/-! ## Distributor -/

/-- `type Distributor string`. -/
structure Distributor where
  name : String
deriving DecidableEq, Repr

/-- `Distributor.AbsPath`: `path.Join(getGopath(), "src", d.Name())`. -/
def Distributor.AbsPath (env : Env) (d : Distributor) : String :=
  pathJoin [getGopath env, "src", d.name]

/-- The `root/src` directory that `AllDistributors` reads. -/
def srcRoot (env : Env) : String := pathJoin [getGopath env, "src"]

/-- `AllDistributors`: read `root/src`, keep proper directories in
returned order, propagate a read error unchanged. -/
def AllDistributors (fs : FS) (env : Env) : Except String (List Distributor) :=
  match fs (srcRoot env) with
  | .error e => .error e
  | .ok dirs => .ok ((dirs.filter isProperDirectory).map (fun d => Distributor.mk d.name))

/-! ## Author and Project -/

/-- `type Author string` (canonical form `distro/name`). -/
structure Author where
  str : String
deriving DecidableEq, Repr

/-- `NewAuthor`: `fmt.Sprintf("%v/%v", distro, name)`. -/
def NewAuthor (distro : Distributor) (name : String) : Author :=
  Author.mk (distro.name ++ "/" ++ name)

/-- Outcome of a canonical-string decomposition.  `indexOutOfRange`
models the Go runtime panic raised when `SplitN` returned fewer pieces
than the code indexes; `malformedIdentifier` is the error the spec
names for that situation — the code never produces it. -/
inductive SplitFailure where
  | indexOutOfRange
  | malformedIdentifier
deriving DecidableEq, Repr

/-- `Author.Split`: `strings.SplitN(a, "/", 2)` then `split[0], split[1]`.
With no `/` present `SplitN` yields one piece and `split[1]` panics. -/
def Author.Split (a : Author) : Except SplitFailure (Distributor × String) :=
  match goSplitN a.str '/' 2 with
  | [d, n] => .ok (Distributor.mk d, n)
  | _ => .error .indexOutOfRange

/-- `Author.AbsPath`: `path.Join(distro.AbsPath(), name)` with
`distro, name := a.Split()`. -/
def Author.AbsPath (env : Env) (a : Author) : Except SplitFailure String :=
  (a.Split).map (fun p => pathJoin [p.1.AbsPath env, p.2])

/-- `type Project string` (canonical form `distro/author/name`). -/
structure Project where
  str : String
deriving DecidableEq, Repr

/-- `NewProject`: `fmt.Sprintf("%v/%v", author, name)`. -/
def NewProject (a : Author) (name : String) : Project :=
  Project.mk (a.str ++ "/" ++ name)

/-- `Project.Split`: `strings.SplitN(p, "/", 3)` then indexing pieces
0, 1, 2; fewer than two `/` make `SplitN` return fewer than three
pieces and the indexing panics. -/
def Project.Split (p : Project) : Except SplitFailure (Distributor × Author × String) :=
  match goSplitN p.str '/' 3 with
  | [d, a, n] => .ok (Distributor.mk d, NewAuthor (Distributor.mk d) a, n)
  | _ => .error .indexOutOfRange

/-- `Project.AbsPath`: `path.Join(p.Author().AbsPath(), p.Name())`. -/
def Project.AbsPath (env : Env) (p : Project) : Except SplitFailure String :=
  match p.Split with
  | .error e => .error e
  | .ok (_, a, n) =>
    match a.AbsPath env with
    | .error e => .error e
    | .ok base => .ok (pathJoin [base, n])

/-! ## Exact lookup -/

/-- Failures of the author lookup: a propagated I/O error message, or
the sentinel `ErrAuthorCouldNotBeFound`. -/
inductive LookupError where
  | ioError (msg : String)
  | authorNotFound
deriving DecidableEq, Repr

/-- `FindAuthorIn`: read the distributor directory, return the first
proper directory whose name is case-insensitively equal to `name`. -/
def FindAuthorIn (fs : FS) (env : Env) (name : String) (distro : Distributor) :
    Except LookupError Author :=
  match fs (distro.AbsPath env) with
  | .error e => .error (.ioError e)
  | .ok files =>
    match files.find? (fun dir => isProperDirectory dir && equalFold name dir.name) with
    | some dir => .ok (NewAuthor distro dir.name)
    | none => .error .authorNotFound

/-- The scan inside `FindAuthor`: first distributor for which
`FindAuthorIn` succeeds; every failure (I/O or not-found alike) moves on
to the next distributor. -/
def findFirstAuthor (fs : FS) (env : Env) (name : String) : List Distributor → Option Author
  | [] => none
  | d :: rest =>
    match FindAuthorIn fs env name d with
    | .ok a => some a
    | .error _ => findFirstAuthor fs env name rest

/-- `FindAuthor`: enumerate distributors (propagating that read's
error), scan them, fall back to `ErrAuthorCouldNotBeFound`. -/
def FindAuthor (fs : FS) (env : Env) (name : String) : Except LookupError Author :=
  match AllDistributors fs env with
  | .error e => .error (.ioError e)
  | .ok distros =>
    match findFirstAuthor fs env name distros with
    | some a => .ok a
    | none => .error .authorNotFound

/-! ## Match classification and the streaming search

The file defining `MatchKind`, `getBestMatch`, `ProjectMatch` and
`FindProject` is absent from the provided sources; only its tests are
present.  These definitions are modelled from the spec (§3–§4.6, §5)
and checked for consistency against the tests. -/

/-- Modelled from the spec: the ordered match-specificity enumeration
(`MatchDistro < MatchAuthor < MatchProject`); the source file defining
the Go constants is missing. -/
inductive MatchKind where
  | matchDistro
  | matchAuthor
  | matchProject
deriving DecidableEq, Repr

/-- Modelled from the spec: `getBestMatch` returns the most specific
hit level — project, else author, else distributor.  Consistent with
`TestGetBestMatch`. -/
def getBestMatch (distroHit authorHit projectHit : Bool) : MatchKind :=
  if projectHit then .matchProject
  else if authorHit then .matchAuthor
  else .matchDistro

/-- Modelled from the spec: the result unit of the locator, a pair of
the matched project and the specificity of the match. -/
structure ProjectMatch where
  project : Project
  kind : MatchKind
deriving DecidableEq, Repr

/-- `xs` begins with `n` (helper for the substring test). -/
def startsWithL : List Char → List Char → Bool
  | [], _ => true
  | _ :: _, [] => false
  | a :: as, b :: bs => a = b && startsWithL as bs

/-- `n` occurs contiguously in `hay`. -/
def isSubstrL (n : List Char) : List Char → Bool
  | [] => startsWithL n []
  | c :: t => startsWithL n (c :: t) || isSubstrL n t

/-- Modelled from the spec: whether `term` hits the entry `name` —
case-insensitive substring when `substringAllowed`, case-insensitive
exact equality of a non-empty term otherwise. -/
def termMatches (substringAllowed : Bool) (term name : String) : Bool :=
  if substringAllowed then isSubstrL (lowerStr term) (lowerStr name)
  else term ≠ "" && equalFold term name

/-- Modelled from the spec: evaluate the term independently against the
distributor, author and project names; classify via `getBestMatch` when
at least one level hits, skip the project silently otherwise. -/
def classifyProject (substringAllowed : Bool) (needle d a p : String) : Option ProjectMatch :=
  let dh := termMatches substringAllowed needle d
  let ah := termMatches substringAllowed needle a
  let ph := termMatches substringAllowed needle p
  if dh || ah || ph then
    some (ProjectMatch.mk (NewProject (NewAuthor (Distributor.mk d) a) p) (getBestMatch dh ah ph))
  else none

/-- One observable action of the `FindProject` producer: a directory
read, a match sent on the result channel, an error sent on the error
channel, or closing one of the two channels. -/
inductive Event where
  | read (path : String)
  | emit (m : ProjectMatch)
  | fail (msg : String)
  | closeP
  | closeE
deriving DecidableEq, Repr

/-- Names of the proper directories among a read's entries, in returned
order. -/
def properNames (entries : List FileInfo) : List String :=
  (entries.filter isProperDirectory).map FileInfo.name

/-- `distributorPath` of the spec, on the raw name. -/
def distributorPath (env : Env) (d : String) : String :=
  pathJoin [getGopath env, "src", d]

/-- `authorPath` of the spec, on the raw names. -/
def authorPath (env : Env) (d a : String) : String :=
  pathJoin [distributorPath env d, a]

/-- Modelled from the spec: the producer's actions while scanning one
author directory — read it, then emit the classified matches in order;
on a read failure emit the single error signal.  The boolean reports
whether the traversal must abort. -/
def authorStep (fs : FS) (env : Env) (sub : Bool) (needle d a : String) :
    List Event × Bool :=
  match fs (authorPath env d a) with
  | .error e => ([.read (authorPath env d a), .fail e], true)
  | .ok entries =>
    (.read (authorPath env d a) ::
      (properNames entries).filterMap (fun p => (classifyProject sub needle d a p).map .emit),
     false)

/-- Run an aborting step over a list: concatenate the outputs of the
steps in order, stopping right after the first step that aborts. -/
def abortLoop {α β : Type} (step : α → List β × Bool) : List α → List β × Bool
  | [] => ([], false)
  | x :: rest =>
    match step x with
    | (out, true) => (out, true)
    | (out, false) =>
      match abortLoop step rest with
      | (out2, ab) => (out ++ out2, ab)

/-- Modelled from the spec: scan the authors of one distributor in
order, stopping at the first failure. -/
def authorsLoop (fs : FS) (env : Env) (sub : Bool) (needle d : String)
    (as : List String) : List Event × Bool :=
  abortLoop (authorStep fs env sub needle d) as

/-- Modelled from the spec: the producer's actions for one distributor —
read its directory, then scan its authors; a read failure emits the
single error signal. -/
def distroStep (fs : FS) (env : Env) (sub : Bool) (needle d : String) :
    List Event × Bool :=
  match fs (distributorPath env d) with
  | .error e => ([.read (distributorPath env d), .fail e], true)
  | .ok entries =>
    match authorsLoop fs env sub needle d (properNames entries) with
    | (evs, ab) => (.read (distributorPath env d) :: evs, ab)

/-- Modelled from the spec: scan the distributors in order, stopping at
the first failure. -/
def distrosLoop (fs : FS) (env : Env) (sub : Bool) (needle : String)
    (ds : List String) : List Event × Bool :=
  abortLoop (distroStep fs env sub needle) ds

/-- Modelled from the spec: the ordered trace of channel actions of one
`FindProject(needle, sub, pCh, eCh)` run — depth-first traversal of the
hierarchy emitting classified matches as discovered, at most one error
signal, then both channels closed whatever happened. -/
def findProjectTrace (fs : FS) (env : Env) (needle : String) (sub : Bool) : List Event :=
  match fs (srcRoot env) with
  | .error e => [.read (srcRoot env), .fail e, .closeP, .closeE]
  | .ok entries =>
    match distrosLoop fs env sub needle (properNames entries) with
    | (evs, _) => .read (srcRoot env) :: evs ++ [.closeP, .closeE]

/-- The matches sent on the result channel, in order. -/
def traceEmits (t : List Event) : List ProjectMatch :=
  t.filterMap (fun ev => match ev with | .emit m => some m | _ => none)

/-! ## The full project enumeration (for the exhaustiveness claim) -/

/-- All projects under one author directory, or abort on a read error. -/
def collectAuthor (fs : FS) (env : Env) (d a : String) : List Project × Bool :=
  match fs (authorPath env d a) with
  | .error _ => ([], true)
  | .ok entries =>
    ((properNames entries).map (fun p => NewProject (NewAuthor (Distributor.mk d) a) p), false)

/-- All projects under a list of authors, stopping at the first error. -/
def collectAuthorsLoop (fs : FS) (env : Env) (d : String)
    (as : List String) : List Project × Bool :=
  abortLoop (collectAuthor fs env d) as

/-- All projects under one distributor, stopping at the first error. -/
def collectDistro (fs : FS) (env : Env) (d : String) : List Project × Bool :=
  match fs (distributorPath env d) with
  | .error _ => ([], true)
  | .ok entries => collectAuthorsLoop fs env d (properNames entries)

/-- All projects under a list of distributors, stopping at the first
error. -/
def collectDistrosLoop (fs : FS) (env : Env) (ds : List String) :
    List Project × Bool :=
  abortLoop (collectDistro fs env) ds

/-- Every project of the tree, in traversal order, truncated at the
first unreadable directory. -/
def collectProjects (fs : FS) (env : Env) : List Project × Bool :=
  match fs (srcRoot env) with
  | .error _ => ([], true)
  | .ok entries => collectDistrosLoop fs env (properNames entries)

/-! ## Concrete fixtures used by witnesses and counterexamples -/

instance exceptDecEq {e a : Type} [DecidableEq e] [DecidableEq a] : DecidableEq (Except e a) :=
  fun x y =>
    match x, y with
    | .ok v, .ok w =>
      if h : v = w then isTrue (by rw [h]) else isFalse (fun hc => h (Except.ok.inj hc))
    | .error v, .error w =>
      if h : v = w then isTrue (by rw [h]) else isFalse (fun hc => h (Except.error.inj hc))
    | .ok _, .error _ => isFalse (fun hc => Except.noConfusion hc)
    | .error _, .ok _ => isFalse (fun hc => Except.noConfusion hc)

/-- An environment that sets only `GOPATH`. -/
def envSame1 : Env := fun k => if k = "GOPATH" then "/gopath" else ""

/-- An environment where every variable reads `/gopath`. -/
def envSame2 : Env := fun _ => "/gopath"

/-- An environment whose `GOPATH` is `/g`. -/
def envG : Env := fun _ => "/g"

/-- A root directory holding a hidden directory, a plain directory and a
regular file. -/
def fsC7 : FS := fun p =>
  if p = "/g/src" then
    .ok [FileInfo.mk ".hidden" true, FileInfo.mk "github.com" true, FileInfo.mk "test.go" false]
  else .error "enoent"

/-- A tree where the first distributor's directory is unreadable and the
second contains the author `alice`. -/
def fsC8 : FS := fun p =>
  if p = "/g/src" then .ok [FileInfo.mk "bad" true, FileInfo.mk "good" true]
  else if p = "/g/src/bad" then .error "permission denied"
  else if p = "/g/src/good" then .ok [FileInfo.mk "alice" true]
  else .error "no such file or directory"

/-- A filesystem where every read fails. -/
def fsBoom : FS := fun _ => .error "boom"

/-- A distributor directory whose single author is stored with
mixed-case on disk. -/
def fsC10 : FS := fun p =>
  if p = "/g/src/github.com" then .ok [FileInfo.mk "Matt3o12" true]
  else .error "enoent"

/-- A traversal result is cleanly aborted: when the abort flag is set
the event list ends in exactly one error signal with no earlier error;
otherwise it contains no error signal at all. -/
def CleanAbort : List Event × Bool → Prop
  | (evs, true) => ∃ pre e, evs = pre ++ [Event.fail e] ∧ ∀ m, Event.fail m ∉ pre
  | (evs, false) => ∀ m, Event.fail m ∉ evs

/-! ## Lemmas about the split primitives -/

theorem stringMkData (s : String) : String.mk s.data = s := by
  cases s
  rfl

theorem splitFirst_of_not_mem {sep : Char} {cs : List Char} (h : sep ∉ cs) :
    splitFirst sep cs = none := by
  induction cs with
  | nil => rfl
  | cons c t ih =>
    have hc : ¬ (c = sep) := fun hc => h (hc ▸ List.mem_cons_self c t)
    have ht : sep ∉ t := fun hm => h (List.mem_cons_of_mem c hm)
    simp [splitFirst, hc, ih ht]

theorem splitFirst_append {sep : Char} {b : List Char} (hb : sep ∉ b) (a : List Char) :
    splitFirst sep (b ++ sep :: a) = some (b, a) := by
  induction b with
  | nil => simp [splitFirst]
  | cons c t ih =>
    have hc : ¬ (c = sep) := fun hc => hb (hc ▸ List.mem_cons_self c t)
    have ht : sep ∉ t := fun hm => hb (List.mem_cons_of_mem c hm)
    simp [splitFirst, hc, ih ht]

theorem splitFirst_eq_some {sep : Char} {cs b a : List Char}
    (h : splitFirst sep cs = some (b, a)) : cs = b ++ sep :: a ∧ sep ∉ b := by
  induction cs generalizing b a with
  | nil => simp [splitFirst] at h
  | cons c t ih =>
    by_cases hc : c = sep
    · subst hc
      simp [splitFirst] at h
      obtain ⟨hb, ha⟩ := h
      subst hb; subst ha
      simp
    · simp only [splitFirst, if_neg hc] at h
      cases hst : splitFirst sep t with
      | none => rw [hst] at h; simp at h
      | some p =>
        obtain ⟨b2, a2⟩ := p
        rw [hst] at h
        simp only [Option.map_some'] at h
        obtain ⟨hb2, ha2⟩ := Prod.mk.inj (Option.some.inj h)
        obtain ⟨ht, hnb⟩ := ih hst
        subst ht
        constructor
        · rw [← hb2, ← ha2]
          simp
        · rw [← hb2]
          intro hm
          rcases List.mem_cons.mp hm with h | h
          · exact hc h.symm
          · exact hnb h

theorem splitFirst_of_mem {sep : Char} {cs : List Char} (h : sep ∈ cs) :
    ∃ b a, splitFirst sep cs = some (b, a) := by
  induction cs with
  | nil => cases h
  | cons c t ih =>
    by_cases hc : c = sep
    · exact ⟨[], t, by simp [splitFirst, hc]⟩
    · have ht : sep ∈ t := by
        rcases List.mem_cons.mp h with h1 | h1
        · exact absurd h1.symm hc
        · exact h1
      obtain ⟨b, a, hba⟩ := ih ht
      exact ⟨c :: b, a, by simp [splitFirst, hc, hba]⟩

theorem splitNList_one (sep : Char) (cs : List Char) : splitNList sep 1 cs = [cs] := rfl

theorem splitNList_succ_append {sep : Char} {b : List Char} (n : Nat)
    (hb : sep ∉ b) (a : List Char) :
    splitNList sep (n + 2) (b ++ sep :: a) = b :: splitNList sep (n + 1) a := by
  rw [splitNList, splitFirst_append hb]

theorem splitNList_succ_of_not_mem {sep : Char} {cs : List Char} (n : Nat)
    (h : sep ∉ cs) : splitNList sep (n + 2) cs = [cs] := by
  rw [splitNList, splitFirst_of_not_mem h]

theorem splitNList_two_append {sep : Char} {b : List Char} (hb : sep ∉ b) (a : List Char) :
    splitNList sep 2 (b ++ sep :: a) = [b, a] := by
  show splitNList sep (0 + 2) (b ++ sep :: a) = [b, a]
  rw [splitNList_succ_append 0 hb a]
  rfl

theorem splitNList_two_none {sep : Char} {cs : List Char} (h : sep ∉ cs) :
    splitNList sep 2 cs = [cs] := by
  show splitNList sep (0 + 2) cs = [cs]
  exact splitNList_succ_of_not_mem 0 h

theorem splitNList_three_append {sep : Char} {b : List Char} (hb : sep ∉ b) (a : List Char) :
    splitNList sep 3 (b ++ sep :: a) = b :: splitNList sep 2 a := by
  show splitNList sep (1 + 2) (b ++ sep :: a) = b :: splitNList sep 2 a
  rw [splitNList_succ_append 1 hb a]

theorem splitNList_three_none {sep : Char} {cs : List Char} (h : sep ∉ cs) :
    splitNList sep 3 cs = [cs] := by
  show splitNList sep (1 + 2) cs = [cs]
  exact splitNList_succ_of_not_mem 1 h

theorem data_slash_append (x y : String) : (x ++ "/" ++ y).data = x.data ++ '/' :: y.data := by
  have h : ("/" : String).data = ['/'] := rfl
  simp [String.data_append, h]

/-! ## Round-trip properties of the canonical string codec -/

/-- C4: for every Distributor `d` (slash-free, per the data-model
invariant on distributors) and every name `n` containing no `/`,
`NewAuthor(d, n).Split()` returns exactly `(d, n)`: the canonical author
string round-trips through construction and decomposition. -/
theorem author_split_recovers (d n : String) (hd : '/' ∉ d.data) (hn : '/' ∉ n.data) :
    (NewAuthor (Distributor.mk d) n).Split = Except.ok (Distributor.mk d, n) := by
  simp only [Author.Split, NewAuthor, goSplitN]
  rw [data_slash_append d n, splitNList_two_append hd n.data]
  simp [stringMkData]

theorem author_split_recovers_witness :
    ('/' ∉ "github.com".data) ∧ ('/' ∉ "foo".data) ∧
      (NewAuthor (Distributor.mk "github.com") "foo").Split
        = Except.ok (Distributor.mk "github.com", "foo") :=
  ⟨by decide, by decide, author_split_recovers "github.com" "foo" (by decide) (by decide)⟩

/-- C3: for every Author built from a slash-free distributor `d` and a
slash-free author name `n` (the data-model invariants), and every
project name `p` — including names containing `/` —
`NewProject(a, p).Split()` returns exactly `(d, a, p)`: the first two
`/` separators are structural and the entire remainder is the project
name. -/
theorem project_split_recovers (d n p : String) (hd : '/' ∉ d.data) (hn : '/' ∉ n.data) :
    (NewProject (NewAuthor (Distributor.mk d) n) p).Split
      = Except.ok (Distributor.mk d, NewAuthor (Distributor.mk d) n, p) := by
  simp only [Project.Split, NewProject, NewAuthor, goSplitN]
  rw [data_slash_append (d ++ "/" ++ n) p, data_slash_append d n]
  have hshape : (d.data ++ '/' :: n.data) ++ '/' :: p.data
      = d.data ++ '/' :: (n.data ++ '/' :: p.data) := by
    simp
  rw [hshape, splitNList_three_append hd, splitNList_two_append hn]
  simp [stringMkData, NewAuthor]

theorem project_split_recovers_witness :
    ('/' ∉ "github.com".data) ∧ ('/' ∉ "foo".data) ∧
      (NewProject (NewAuthor (Distributor.mk "github.com") "foo") "bar/test").Split
        = Except.ok (Distributor.mk "github.com",
            NewAuthor (Distributor.mk "github.com") "foo", "bar/test") :=
  ⟨by decide, by decide,
    project_split_recovers "github.com" "foo" "bar/test" (by decide) (by decide)⟩

/-- C5 counterexample: decomposing an Author string with no `/` does
not produce the `MalformedIdentifier` error the claim requires — the
actual behaviour is the out-of-range indexing panic (`SplitN` returned
one piece, the code reads `split[1]`); likewise for a Project string
with a single `/`. -/
theorem split_malformed_cex :
    (Author.mk "github.com").Split = Except.error SplitFailure.indexOutOfRange ∧
    (Author.mk "github.com").Split ≠ Except.error SplitFailure.malformedIdentifier ∧
    (Project.mk "github.com/matt3o12").Split = Except.error SplitFailure.indexOutOfRange ∧
    (Project.mk "github.com/matt3o12").Split ≠ Except.error SplitFailure.malformedIdentifier := by
  decide

/-- C5 amended: for every canonical identifier string with fewer `/`
separators than its level requires, decomposition fails by the Go
runtime out-of-range panic on the missing `SplitN` piece (the `Split`
methods return no error value at all), not with a `MalformedIdentifier`
error. -/
theorem split_missing_separator :
    (∀ s : String, '/' ∉ s.data →
        (Author.mk s).Split = Except.error SplitFailure.indexOutOfRange) ∧
    (∀ s : String, s.data.count '/' < 2 →
        (Project.mk s).Split = Except.error SplitFailure.indexOutOfRange) := by
  constructor
  · intro s h
    simp only [Author.Split, goSplitN]
    rw [splitNList_two_none h]
    rfl
  · intro s h
    by_cases hm : '/' ∈ s.data
    · obtain ⟨b, a, hba⟩ := splitFirst_of_mem hm
      obtain ⟨hcs, hnb⟩ := splitFirst_eq_some hba
      have hca : '/' ∉ a := by
        intro hmem
        have h1 : 0 < a.count '/' := List.count_pos_iff.mpr hmem
        have h2 : s.data.count '/' = b.count '/' + (a.count '/' + 1) := by
          rw [hcs]
          simp [List.count_append, List.count_cons]
        rw [h2] at h
        omega
      simp only [Project.Split, goSplitN]
      rw [hcs, splitNList_three_append hnb, splitNList_two_none hca]
      rfl
    · simp only [Project.Split, goSplitN]
      rw [splitNList_three_none hm]
      rfl

theorem split_missing_separator_witness :
    ('/' ∉ "bitbucket.org".data) ∧
      (Author.mk "bitbucket.org").Split = Except.error SplitFailure.indexOutOfRange ∧
      ("code.google.com/p".data.count '/' < 2) ∧
      (Project.mk "code.google.com/p").Split = Except.error SplitFailure.indexOutOfRange :=
  ⟨by decide, split_missing_separator.1 "bitbucket.org" (by decide),
    by decide, split_missing_separator.2 "code.google.com/p" (by decide)⟩

/-! ## The match classifier -/

/-- C2: for all booleans `distroHit`, `authorHit`, `projectHit` with at
least one true, `getBestMatch` returns the most specific matched level:
project if `projectHit`, else author if `authorHit`, else distro —
regardless of the other inputs. -/
theorem getBestMatch_most_specific :
    ∀ dh ah ph : Bool, (dh || ah || ph) = true →
      (ph = true → getBestMatch dh ah ph = MatchKind.matchProject) ∧
      (ph = false → ah = true → getBestMatch dh ah ph = MatchKind.matchAuthor) ∧
      (ph = false → ah = false → getBestMatch dh ah ph = MatchKind.matchDistro) := by
  decide

theorem getBestMatch_most_specific_witness :
    ((true || true || true) = true) ∧
      ((true = true → getBestMatch true true true = MatchKind.matchProject) ∧
       (true = false → true = true → getBestMatch true true true = MatchKind.matchAuthor) ∧
       (true = false → true = false → getBestMatch true true true = MatchKind.matchDistro)) :=
  ⟨rfl, getBestMatch_most_specific true true true rfl⟩

/-! ## Determinism of the path codec -/

/-- C9 counterexample: `Distributor.AbsPath` (through `getGopath`,
i.e. `os.Getenv("GOPATH")`) reads the ambient environment: two runs on
the same distributor under different ambient environments return
different paths, so the core does read ambient process environment
state directly. -/
theorem absPath_reads_environment_cex :
    Distributor.AbsPath (fun _ => "/rootA") (Distributor.mk "github.com")
      ≠ Distributor.AbsPath (fun _ => "/rootB") (Distributor.mk "github.com") := by
  decide

/-- C9 amended: the path codec is pure and deterministic given the
`GOPATH` value: whenever two environments agree on `GOPATH`, all three
`AbsPath` functions agree on every input.  However, the core reads the
`GOPATH` environment variable directly (`getGopath` calls `os.Getenv`
inside `Distributor.AbsPath`), so the results do depend on ambient
environment state. -/
theorem absPath_deterministic (env1 env2 : Env) (h : getGopath env1 = getGopath env2) :
    (∀ d : Distributor, d.AbsPath env1 = d.AbsPath env2) ∧
    (∀ a : Author, a.AbsPath env1 = a.AbsPath env2) ∧
    (∀ p : Project, p.AbsPath env1 = p.AbsPath env2) := by
  have hd : ∀ d : Distributor, d.AbsPath env1 = d.AbsPath env2 := by
    intro d
    simp [Distributor.AbsPath, h]
  have ha : ∀ a : Author, a.AbsPath env1 = a.AbsPath env2 := by
    intro a
    simp only [Author.AbsPath]
    cases hs : a.Split with
    | error e => rfl
    | ok pr =>
      obtain ⟨d1, n1⟩ := pr
      simp [Except.map, hd d1]
  refine ⟨hd, ha, ?_⟩
  intro p
  simp only [Project.AbsPath]
  cases hs : p.Split with
  | error e => rfl
  | ok tr =>
    obtain ⟨d1, a1, n1⟩ := tr
    simp [ha a1]

theorem absPath_deterministic_witness :
    (getGopath envSame1 = getGopath envSame2) ∧
      Distributor.AbsPath envSame1 (Distributor.mk "github.com")
        = Distributor.AbsPath envSame2 (Distributor.mk "github.com") :=
  ⟨by decide, (absPath_deterministic envSame1 envSame2 (by decide)).1 (Distributor.mk "github.com")⟩

/-! ## The distributor enumerator -/

/-- C7: `AllDistributors` returns exactly the entries of `root/src` that
are directories whose names do not begin with `.`, in the order the
filesystem returned them; a directory named `.hidden` is never
included; and when `root/src` cannot be read the underlying I/O error
is surfaced unchanged. -/
theorem allDistributors_spec :
    (∀ (fs : FS) (env : Env) (entries : List FileInfo), fs (srcRoot env) = .ok entries →
        AllDistributors fs env = .ok
          ((entries.filter (fun fi => fi.isDir && !(fi.name.data.head? = some '.'))).map
            (fun fi => Distributor.mk fi.name))) ∧
    (∀ (fs : FS) (env : Env) (e : String), fs (srcRoot env) = .error e →
        AllDistributors fs env = .error e) ∧
    (∀ (fs : FS) (env : Env) (l : List Distributor), AllDistributors fs env = .ok l →
        Distributor.mk ".hidden" ∉ l) := by
  refine ⟨?_, ?_, ?_⟩
  · intro fs env entries h
    simp only [AllDistributors, h]
    rfl
  · intro fs env e h
    simp [AllDistributors, h]
  · intro fs env l h hmem
    cases hr : fs (srcRoot env) with
    | error e => simp [AllDistributors, hr] at h
    | ok entries =>
      simp only [AllDistributors, hr] at h
      rw [← Except.ok.inj h] at hmem
      obtain ⟨fi, hfi, heq⟩ := List.mem_map.mp hmem
      have hname : fi.name = ".hidden" := Distributor.mk.inj heq
      have hp : isProperDirectory fi = true := (List.mem_filter.mp hfi).2
      rw [isProperDirectory, hname] at hp
      simp at hp

theorem allDistributors_spec_witness :
    (fsC7 (srcRoot envG)
        = .ok [FileInfo.mk ".hidden" true, FileInfo.mk "github.com" true,
               FileInfo.mk "test.go" false]) ∧
      (AllDistributors fsC7 envG = .ok
        (([FileInfo.mk ".hidden" true, FileInfo.mk "github.com" true,
           FileInfo.mk "test.go" false].filter
            (fun fi => fi.isDir && !(fi.name.data.head? = some '.'))).map
          (fun fi => Distributor.mk fi.name))) ∧
      (AllDistributors fsC7 envG = .ok [Distributor.mk "github.com"]) ∧
      (Distributor.mk ".hidden" ∉ [Distributor.mk "github.com"]) :=
  ⟨by decide,
   allDistributors_spec.1 fsC7 envG _ (by decide),
   by decide,
   allDistributors_spec.2.2 fsC7 envG [Distributor.mk "github.com"] (by decide)⟩

/-! ## Error flow of the author lookup -/

/-- C8 counterexample: with the first distributor directory unreadable
(`permission denied`) and the author present under the second,
`FindAuthor` neither propagates the I/O error nor aborts — it skips the
failing distributor and returns the author found under the next one. -/
theorem findAuthor_io_skip_cex :
    FindAuthorIn fsC8 envG "alice" (Distributor.mk "bad")
        = Except.error (LookupError.ioError "permission denied") ∧
      FindAuthor fsC8 envG "alice" = Except.ok (Author.mk "good/alice") := by
  decide

/-- C8 amended: inside `FindAuthor`, an I/O failure reading a
distributor's directory is recovered, not propagated: the failing
distributor is skipped and the scan continues with the remaining
distributors.  The only I/O error `FindAuthor` ever surfaces is the one
from reading `root/src` itself; when the scan exhausts all distributors
the sentinel `ErrAuthorCouldNotBeFound` is returned instead. -/
theorem findAuthor_skips_unreadable :
    (∀ (fs : FS) (env : Env) (name : String) (d : Distributor) (rest : List Distributor)
        (m : String),
        FindAuthorIn fs env name d = .error (.ioError m) →
        findFirstAuthor fs env name (d :: rest) = findFirstAuthor fs env name rest) ∧
    (∀ (fs : FS) (env : Env) (name m : String),
        FindAuthor fs env name = .error (.ioError m) → fs (srcRoot env) = .error m) := by
  constructor
  · intro fs env name d rest m h
    simp [findFirstAuthor, h]
  · intro fs env name m h
    cases hr : fs (srcRoot env) with
    | error e =>
      have hall : AllDistributors fs env = .error e := by simp [AllDistributors, hr]
      simp only [FindAuthor, hall] at h
      have h2 : e = m := LookupError.ioError.inj (Except.error.inj h)
      rw [h2]
    | ok entries =>
      exfalso
      have hall : AllDistributors fs env
          = .ok ((entries.filter isProperDirectory).map (fun d => Distributor.mk d.name)) := by
        simp [AllDistributors, hr]
      simp only [FindAuthor, hall] at h
      cases hf : findFirstAuthor fs env name
          ((entries.filter isProperDirectory).map (fun d => Distributor.mk d.name)) with
      | some a => rw [hf] at h; simp at h
      | none =>
        rw [hf] at h
        simp only [] at h
        exact LookupError.noConfusion (Except.error.inj h)

theorem findAuthor_skips_unreadable_witness :
    (FindAuthorIn fsC8 envG "alice" (Distributor.mk "bad")
        = Except.error (LookupError.ioError "permission denied")) ∧
      (findFirstAuthor fsC8 envG "alice" [Distributor.mk "bad", Distributor.mk "good"]
        = findFirstAuthor fsC8 envG "alice" [Distributor.mk "good"]) ∧
      (FindAuthor fsBoom envG "zz" = Except.error (LookupError.ioError "boom")) ∧
      (fsBoom (srcRoot envG) = Except.error "boom") :=
  ⟨by decide,
   findAuthor_skips_unreadable.1 fsC8 envG "alice" (Distributor.mk "bad")
     [Distributor.mk "good"] "permission denied" (by decide),
   by decide,
   findAuthor_skips_unreadable.2 fsBoom envG "zz" "boom" (by decide)⟩

/-! ## Case-insensitive lookup returns the on-disk casing -/

/-- C10: `FindAuthorIn` compares the query against directory names
case-insensitively — two queries with the same case-folding give
identical results — and every successful result is built from the
matched directory entry's actual on-disk name, so the returned
canonical string carries the on-disk casing, not the query's casing. -/
theorem findAuthorIn_on_disk_casing :
    (∀ (fs : FS) (env : Env) (d : Distributor) (q1 q2 : String),
        lowerStr q1 = lowerStr q2 →
        FindAuthorIn fs env q1 d = FindAuthorIn fs env q2 d) ∧
    (∀ (fs : FS) (env : Env) (q : String) (d : Distributor) (a : Author),
        FindAuthorIn fs env q d = .ok a →
        ∃ entries fi, fs (d.AbsPath env) = .ok entries ∧ fi ∈ entries ∧
          isProperDirectory fi = true ∧ equalFold q fi.name = true ∧
          a = NewAuthor d fi.name) := by
  constructor
  · intro fs env d q1 q2 h
    simp only [FindAuthorIn, equalFold, h]
  · intro fs env q d a h
    cases hr : fs (d.AbsPath env) with
    | error e => simp [FindAuthorIn, hr] at h
    | ok files =>
      simp only [FindAuthorIn, hr] at h
      cases hf : files.find? (fun dir => isProperDirectory dir && equalFold q dir.name) with
      | none => rw [hf] at h; simp at h
      | some fi =>
        rw [hf] at h
        simp only [] at h
        have hmem := List.mem_of_find?_eq_some hf
        have hp := List.find?_some hf
        rw [Bool.and_eq_true] at hp
        exact ⟨files, fi, rfl, hmem, hp.1, hp.2, (Except.ok.inj h).symm⟩

theorem findAuthorIn_on_disk_casing_witness :
    (lowerStr "matt3o12" = lowerStr "MATT3O12") ∧
      (FindAuthorIn fsC10 envG "matt3o12" (Distributor.mk "github.com")
        = FindAuthorIn fsC10 envG "MATT3O12" (Distributor.mk "github.com")) ∧
      (FindAuthorIn fsC10 envG "matt3o12" (Distributor.mk "github.com")
        = Except.ok (Author.mk "github.com/Matt3o12")) ∧
      (∃ entries fi, fsC10 ((Distributor.mk "github.com").AbsPath envG) = .ok entries ∧
         fi ∈ entries ∧ isProperDirectory fi = true ∧
         equalFold "matt3o12" fi.name = true ∧
         Author.mk "github.com/Matt3o12" = NewAuthor (Distributor.mk "github.com") fi.name) :=
  ⟨by decide,
   findAuthorIn_on_disk_casing.1 fsC10 envG (Distributor.mk "github.com")
     "matt3o12" "MATT3O12" (by decide),
   by decide,
   findAuthorIn_on_disk_casing.2 fsC10 envG "matt3o12" (Distributor.mk "github.com")
     (Author.mk "github.com/Matt3o12") (by decide)⟩

/-! ## The error contract of the streaming search -/

theorem no_fail_in_emits (sub : Bool) (needle d a : String) (ps : List String) :
    ∀ m, Event.fail m ∉ ps.filterMap (fun p => (classifyProject sub needle d a p).map .emit) := by
  intro m hm
  obtain ⟨p, hp, heq⟩ := List.mem_filterMap.mp hm
  obtain ⟨pm, hpm, hemit⟩ := Option.map_eq_some'.mp heq
  exact Event.noConfusion hemit

theorem authorStep_cleanAbort (fs : FS) (env : Env) (sub : Bool) (needle d a : String) :
    CleanAbort (authorStep fs env sub needle d a) := by
  unfold authorStep
  cases hr : fs (authorPath env d a) with
  | error e =>
    exact ⟨[.read (authorPath env d a)], e, rfl, by simp⟩
  | ok entries =>
    intro m hm
    rcases List.mem_cons.mp hm with h | h
    · exact Event.noConfusion h
    · exact no_fail_in_emits sub needle d a (properNames entries) m h

theorem abortLoop_cleanAbort {α : Type} (step : α → List Event × Bool)
    (hstep : ∀ x, CleanAbort (step x)) : ∀ l : List α, CleanAbort (abortLoop step l) := by
  intro l
  induction l with
  | nil => intro m hm; cases hm
  | cons x rest ih =>
    have hx := hstep x
    cases hs : step x with
    | mk evs ab =>
      rw [hs] at hx
      cases ab with
      | true =>
        show CleanAbort (abortLoop step (x :: rest))
        rw [abortLoop, hs]
        exact hx
      | false =>
        cases hrest : abortLoop step rest with
        | mk evs2 ab2 =>
          rw [hrest] at ih
          show CleanAbort (abortLoop step (x :: rest))
          rw [abortLoop, hs, hrest]
          cases ab2 with
          | true =>
            obtain ⟨pre, e, hpre, hnf⟩ := ih
            refine ⟨evs ++ pre, e, ?_, ?_⟩
            · rw [hpre, List.append_assoc]
            · intro m hm
              rcases List.mem_append.mp hm with h | h
              · exact hx m h
              · exact hnf m h
          | false =>
            intro m hm
            rcases List.mem_append.mp hm with h | h
            · exact hx m h
            · exact ih m h

theorem distroStep_cleanAbort (fs : FS) (env : Env) (sub : Bool) (needle d : String) :
    CleanAbort (distroStep fs env sub needle d) := by
  cases hr : fs (distributorPath env d) with
  | error e =>
    simp only [distroStep, hr]
    exact ⟨[.read (distributorPath env d)], e, rfl, by simp⟩
  | ok entries =>
    have hal := abortLoop_cleanAbort (authorStep fs env sub needle d)
      (fun a => authorStep_cleanAbort fs env sub needle d a) (properNames entries)
    cases ha : authorsLoop fs env sub needle d (properNames entries) with
    | mk evs ab =>
      have ha2 := ha
      rw [authorsLoop] at ha2
      rw [ha2] at hal
      simp only [distroStep, hr, ha]
      cases ab with
      | true =>
        obtain ⟨pre, e, hpre, hnf⟩ := hal
        refine ⟨.read (distributorPath env d) :: pre, e, ?_, ?_⟩
        · rw [hpre]
          rfl
        · intro m hm
          rcases List.mem_cons.mp hm with h | h
          · exact Event.noConfusion h
          · exact hnf m h
      | false =>
        intro m hm
        rcases List.mem_cons.mp hm with h | h
        · exact Event.noConfusion h
        · exact hal m h

/-- C1: for every run of the locator search, if an enumeration step
fails then the producer's trace consists of a prefix containing no
error signal, then exactly one error signal, then the closing of the
result channel and of the error channel and nothing else — so no
`ProjectMatch` is emitted after the error, no directory is read after
the error, and a consumer draining both channels observes
termination. -/
theorem findProject_error_contract (fs : FS) (env : Env) (needle : String) (sub : Bool)
    (hfail : ∃ e, Event.fail e ∈ findProjectTrace fs env needle sub) :
    ∃ pre e, findProjectTrace fs env needle sub
        = pre ++ [Event.fail e, Event.closeP, Event.closeE] ∧
      ∀ m, Event.fail m ∉ pre := by
  cases hr : fs (srcRoot env) with
  | error e =>
    have ht : findProjectTrace fs env needle sub
        = [.read (srcRoot env), .fail e, .closeP, .closeE] := by
      rw [findProjectTrace, hr]
    refine ⟨[.read (srcRoot env)], e, by rw [ht]; rfl, ?_⟩
    intro m hm
    rcases List.mem_cons.mp hm with h | h
    · exact Event.noConfusion h
    · cases h
  | ok entries =>
    have hca := abortLoop_cleanAbort (distroStep fs env sub needle)
      (fun d => distroStep_cleanAbort fs env sub needle d) (properNames entries)
    cases hd : distrosLoop fs env sub needle (properNames entries) with
    | mk evs ab =>
      have hd2 := hd
      rw [distrosLoop] at hd2
      rw [hd2] at hca
      have ht : findProjectTrace fs env needle sub
          = .read (srcRoot env) :: evs ++ [.closeP, .closeE] := by
        simp only [findProjectTrace, hr, hd]
      cases ab with
      | true =>
        obtain ⟨pre, e, hpre, hnf⟩ := hca
        refine ⟨.read (srcRoot env) :: pre, e, ?_, ?_⟩
        · rw [ht, hpre]
          simp
        · intro m hm
          rcases List.mem_cons.mp hm with h | h
          · exact Event.noConfusion h
          · exact hnf m h
      | false =>
        exfalso
        obtain ⟨e, he⟩ := hfail
        rw [ht] at he
        rcases List.mem_cons.mp he with h | h
        · exact Event.noConfusion h
        · rcases List.mem_append.mp h with h2 | h2
          · exact hca e h2
          · rcases List.mem_cons.mp h2 with h3 | h3
            · exact Event.noConfusion h3
            · rcases List.mem_cons.mp h3 with h4 | h4
              · exact Event.noConfusion h4
              · cases h4

theorem findProject_error_contract_witness :
    (∃ e, Event.fail e ∈ findProjectTrace fsBoom envG "x" true) ∧
      (∃ pre e, findProjectTrace fsBoom envG "x" true
          = pre ++ [Event.fail e, Event.closeP, Event.closeE] ∧
        ∀ m, Event.fail m ∉ pre) :=
  ⟨⟨"boom", by decide⟩,
   findProject_error_contract fsBoom envG "x" true ⟨"boom", by decide⟩⟩

/-! ## The empty search term -/

theorem isSubstrL_nil (l : List Char) : isSubstrL [] l = true := by
  cases l with
  | nil => rfl
  | cons c t => simp [isSubstrL, startsWithL]

theorem termMatches_empty_sub (s : String) : termMatches true "" s = true := by
  have h : lowerStr "" = [] := rfl
  simp [termMatches, h, isSubstrL_nil]

theorem termMatches_empty_exact (s : String) : termMatches false "" s = false := by
  simp [termMatches]

theorem classify_empty_sub (d a p : String) :
    classifyProject true "" d a p
      = some (ProjectMatch.mk (NewProject (NewAuthor (Distributor.mk d) a) p)
          MatchKind.matchProject) := by
  simp [classifyProject, termMatches_empty_sub, getBestMatch]

theorem classify_empty_exact (d a p : String) :
    classifyProject false "" d a p = none := by
  simp [classifyProject, termMatches_empty_exact]

theorem traceEmits_append (l1 l2 : List Event) :
    traceEmits (l1 ++ l2) = traceEmits l1 ++ traceEmits l2 := by
  simp [traceEmits]

theorem traceEmits_read (p : String) (l : List Event) :
    traceEmits (Event.read p :: l) = traceEmits l := by
  simp [traceEmits]

theorem traceEmits_fail (m : String) (l : List Event) :
    traceEmits (Event.fail m :: l) = traceEmits l := by
  simp [traceEmits]

theorem traceEmits_emit (pm : ProjectMatch) (l : List Event) :
    traceEmits (Event.emit pm :: l) = pm :: traceEmits l := by
  simp [traceEmits]

theorem traceEmits_filterMap_classify (sub : Bool) (needle d a : String) (ps : List String) :
    traceEmits (ps.filterMap (fun p => (classifyProject sub needle d a p).map .emit))
      = ps.filterMap (classifyProject sub needle d a) := by
  induction ps with
  | nil => rfl
  | cons p rest ih =>
    cases hc : classifyProject sub needle d a p with
    | none =>
      simp only [List.filterMap_cons, hc, Option.map_none']
      exact ih
    | some pm =>
      simp only [List.filterMap_cons, hc, Option.map_some']
      rw [traceEmits_emit, ih]

theorem filterMap_classify_empty_sub (d a : String) (ps : List String) :
    ps.filterMap (classifyProject true "" d a)
      = ps.map (fun p => ProjectMatch.mk (NewProject (NewAuthor (Distributor.mk d) a) p)
          MatchKind.matchProject) := by
  induction ps with
  | nil => rfl
  | cons p rest ih => simp [List.filterMap_cons, classify_empty_sub, ih]

theorem filterMap_classify_empty_exact (d a : String) (ps : List String) :
    ps.filterMap (classifyProject false "" d a) = [] := by
  induction ps with
  | nil => rfl
  | cons p rest ih => simp [List.filterMap_cons, classify_empty_exact, ih]

theorem authorStep_empty_sub (fs : FS) (env : Env) (d a : String) :
    traceEmits (authorStep fs env true "" d a).1
        = ((collectAuthor fs env d a).1).map
            (fun p => ProjectMatch.mk p MatchKind.matchProject) ∧
      (authorStep fs env true "" d a).2 = (collectAuthor fs env d a).2 := by
  cases hr : fs (authorPath env d a) with
  | error e =>
    simp only [authorStep, collectAuthor, hr]
    exact ⟨rfl, trivial⟩
  | ok entries =>
    simp only [authorStep, collectAuthor, hr]
    constructor
    · rw [traceEmits_read, traceEmits_filterMap_classify, filterMap_classify_empty_sub,
        List.map_map]
      rfl
    · trivial

theorem authorStep_empty_exact (fs : FS) (env : Env) (d a : String) :
    traceEmits (authorStep fs env false "" d a).1 = [] := by
  cases hr : fs (authorPath env d a) with
  | error e => simp [authorStep, hr, traceEmits]
  | ok entries =>
    simp only [authorStep, hr]
    rw [traceEmits_read, traceEmits_filterMap_classify, filterMap_classify_empty_exact]

theorem abortLoop_emits_hom {α : Type} (step1 : α → List Event × Bool)
    (step2 : α → List Project × Bool) (g : Project → ProjectMatch)
    (h : ∀ x, traceEmits (step1 x).1 = ((step2 x).1).map g ∧ (step1 x).2 = (step2 x).2) :
    ∀ l : List α, traceEmits (abortLoop step1 l).1 = ((abortLoop step2 l).1).map g ∧
      (abortLoop step1 l).2 = (abortLoop step2 l).2 := by
  intro l
  induction l with
  | nil => exact ⟨rfl, rfl⟩
  | cons x rest ih =>
    obtain ⟨he, hb⟩ := h x
    cases hs1 : step1 x with
    | mk o1 b1 =>
      cases hs2 : step2 x with
      | mk o2 b2 =>
        simp only [hs1, hs2] at he hb
        subst hb
        cases b1 with
        | true =>
          simp only [abortLoop, hs1, hs2]
          exact ⟨he, trivial⟩
        | false =>
          cases hr1 : abortLoop step1 rest with
          | mk r1 rb1 =>
            cases hr2 : abortLoop step2 rest with
            | mk r2 rb2 =>
              simp only [hr1, hr2] at ih
              simp only [abortLoop, hs1, hs2, hr1, hr2]
              exact ⟨by rw [traceEmits_append, he, ih.1, List.map_append], ih.2⟩

theorem abortLoop_emits_nil {α : Type} (step : α → List Event × Bool)
    (h : ∀ x, traceEmits (step x).1 = []) :
    ∀ l : List α, traceEmits (abortLoop step l).1 = [] := by
  intro l
  induction l with
  | nil => rfl
  | cons x rest ih =>
    cases hs : step x with
    | mk o b =>
      have ho : traceEmits o = [] := by
        have := h x
        rw [hs] at this
        exact this
      cases b with
      | true => simp only [abortLoop, hs]; exact ho
      | false =>
        cases hr : abortLoop step rest with
        | mk r rb =>
          rw [hr] at ih
          simp only [abortLoop, hs, hr]
          rw [traceEmits_append, ho, ih]
          rfl

theorem distroStep_empty_sub (fs : FS) (env : Env) (d : String) :
    traceEmits (distroStep fs env true "" d).1
        = ((collectDistro fs env d).1).map (fun p => ProjectMatch.mk p MatchKind.matchProject) ∧
      (distroStep fs env true "" d).2 = (collectDistro fs env d).2 := by
  cases hr : fs (distributorPath env d) with
  | error e =>
    simp only [distroStep, collectDistro, hr]
    exact ⟨rfl, trivial⟩
  | ok entries =>
    have hal := abortLoop_emits_hom (authorStep fs env true "" d) (collectAuthor fs env d)
      (fun p => ProjectMatch.mk p MatchKind.matchProject)
      (fun a => authorStep_empty_sub fs env d a) (properNames entries)
    cases ha1 : abortLoop (authorStep fs env true "" d) (properNames entries) with
    | mk evs ab =>
      cases ha2 : abortLoop (collectAuthor fs env d) (properNames entries) with
      | mk ps ab2 =>
        simp only [ha1, ha2] at hal
        simp only [distroStep, collectDistro, hr, authorsLoop, collectAuthorsLoop, ha1, ha2]
        exact ⟨by rw [traceEmits_read]; exact hal.1, hal.2⟩

theorem distroStep_empty_exact (fs : FS) (env : Env) (d : String) :
    traceEmits (distroStep fs env false "" d).1 = [] := by
  cases hr : fs (distributorPath env d) with
  | error e => simp [distroStep, hr, traceEmits]
  | ok entries =>
    have hal := abortLoop_emits_nil (authorStep fs env false "" d)
      (fun a => authorStep_empty_exact fs env d a) (properNames entries)
    cases ha1 : abortLoop (authorStep fs env false "" d) (properNames entries) with
    | mk evs ab =>
      rw [ha1] at hal
      simp only [distroStep, hr, authorsLoop, ha1]
      rw [traceEmits_read]
      exact hal

/-- C6: with the empty search term, substring mode matches every entry
at every hierarchy level — so the search emits every project of the
tree (up to the error truncation point), each classified as a
project-level match — while exact mode matches nothing and the search
emits no result at all. -/
theorem findProject_empty_term :
    (∀ s : String, termMatches true "" s = true) ∧
    (∀ s : String, termMatches false "" s = false) ∧
    (∀ (fs : FS) (env : Env), traceEmits (findProjectTrace fs env "" true)
        = ((collectProjects fs env).1).map
            (fun p => ProjectMatch.mk p MatchKind.matchProject)) ∧
    (∀ (fs : FS) (env : Env), traceEmits (findProjectTrace fs env "" false) = []) := by
  refine ⟨termMatches_empty_sub, termMatches_empty_exact, ?_, ?_⟩
  · intro fs env
    cases hr : fs (srcRoot env) with
    | error e => simp [findProjectTrace, collectProjects, hr, traceEmits]
    | ok entries =>
      have hdl := abortLoop_emits_hom (distroStep fs env true "") (collectDistro fs env)
        (fun p => ProjectMatch.mk p MatchKind.matchProject)
        (fun d => distroStep_empty_sub fs env d) (properNames entries)
      cases hd1 : abortLoop (distroStep fs env true "") (properNames entries) with
      | mk evs ab =>
        cases hd2 : abortLoop (collectDistro fs env) (properNames entries) with
        | mk ps ab2 =>
          simp only [hd1, hd2] at hdl
          simp only [findProjectTrace, collectProjects, hr, distrosLoop, collectDistrosLoop,
            hd1, hd2]
          rw [traceEmits_append, traceEmits_read, hdl.1]
          simp [traceEmits]
  · intro fs env
    cases hr : fs (srcRoot env) with
    | error e => simp [findProjectTrace, hr, traceEmits]
    | ok entries =>
      have hdl := abortLoop_emits_nil (distroStep fs env false "")
        (fun d => distroStep_empty_exact fs env d) (properNames entries)
      cases hd1 : abortLoop (distroStep fs env false "") (properNames entries) with
      | mk evs ab =>
        rw [hd1] at hdl
        simp only [findProjectTrace, hr, distrosLoop, hd1]
        rw [traceEmits_append, traceEmits_read, hdl]
        simp [traceEmits]
